import Mathlib

/-!
Verification of `led_clock.py` (MAX7219 Raspberry Pi LED clock).

The Python program is shallowly embedded below: each pure helper of the
source becomes a Lean function on `Nat`/`Int`/`Rat` (Python ints are
unbounded, so no wraparound modelling is needed; Python floats are
modelled as exact rationals), drawing calls become explicit lists of
lit pixel coordinates, and fallible parsing becomes `Option`.
-/

/-! ## Time-window check (`_in_window`, src/led_clock.py lines 60-68) -/

/-- Minutes since midnight of an (hour, minute) pair, as in
`hm[0] * 60 + hm[1]` of the source. -/
def minutesOfDay (hm : ℕ × ℕ) : ℕ := hm.1 * 60 + hm.2

/-- Embedding of `_in_window(now, start_hm, end_hm)`: the current time is
taken at minute granularity from `now.hour` and `now.minute`. -/
def in_window (nowHour nowMinute : ℕ) (startHm endHm : ℕ × ℕ) : Bool :=
  let cur := nowHour * 60 + nowMinute
  let s := minutesOfDay startHm
  let e := minutesOfDay endHm
  if s ≤ e then decide (s ≤ cur ∧ cur < e)
  else decide (cur ≥ s ∨ cur < e)

/-! ## Ticker firing condition (main loop, src/led_clock.py line 328) -/

/-- Embedding of the main-loop condition
`time.monotonic() - last_ticker_ts >= ticker_every and not (now.minute == 0 and now.second == 0)`
that decides whether the date ticker runs in a given iteration. -/
def ticker_should_fire (monoNow lastTickerTs tickerEvery : ℚ)
    (minute second : ℕ) : Bool :=
  decide (tickerEvery ≤ monoNow - lastTickerTs) && !(minute == 0 && second == 0)

/-! ## Colon blink state (main loop, src/led_clock.py line 335) -/

/-- Embedding of `blink = bool(blink_colon and (now.second % 2 == 1))`;
`blink_colon` is the integer read from `LED_BLINK_COLON`. -/
def main_blink (blink_colon : ℤ) (second : ℕ) : Bool :=
  (blink_colon != 0) && (second % 2 == 1)

example : in_window 23 0 (22, 30) (7, 0) = true := by decide
example : in_window 7 0 (22, 30) (7, 0) = false := by decide
example : in_window 12 0 (22, 30) (7, 0) = false := by decide
example : in_window 12 0 (9, 0) (17, 0) = true := by decide
example : ((-3 : ℤ) / 2) = -2 := by decide
example : ((-1 : ℤ) % 24) = 23 := by decide

/-- C1: window membership. When start ≤ end (as minutes since midnight)
`_in_window` returns true iff start ≤ now < end; when start > end
(midnight-crossing) it returns true iff now ≥ start or now < end;
membership is computed from the current hour and minute only. -/
theorem in_window_correct (nowHour nowMinute : ℕ) (startHm endHm : ℕ × ℕ) :
    (minutesOfDay startHm ≤ minutesOfDay endHm →
      (in_window nowHour nowMinute startHm endHm = true ↔
        minutesOfDay startHm ≤ nowHour * 60 + nowMinute ∧
          nowHour * 60 + nowMinute < minutesOfDay endHm)) ∧
    (minutesOfDay endHm < minutesOfDay startHm →
      (in_window nowHour nowMinute startHm endHm = true ↔
        nowHour * 60 + nowMinute ≥ minutesOfDay startHm ∨
          nowHour * 60 + nowMinute < minutesOfDay endHm)) := by
  unfold in_window
  constructor
  · intro hle
    simp [hle]
  · intro hlt
    have : ¬ (minutesOfDay startHm ≤ minutesOfDay endHm) := by omega
    simp [this]

/-- Witness for C1: the documented night window 22:30–07:00 contains 23:00. -/
theorem in_window_correct_witness :
    in_window 23 0 (22, 30) (7, 0) = true :=
  ((in_window_correct 23 0 (22, 30) (7, 0)).2 (by decide)).mpr
    (Or.inl (by decide))

/-- C5: in a main-loop iteration the date ticker never fires at
minute = 0, second = 0 even when its interval has elapsed; at any other
(minute, second) it fires exactly when the interval has elapsed. -/
theorem ticker_skip (monoNow lastTickerTs tickerEvery : ℚ)
    (minute second : ℕ) :
    (minute = 0 ∧ second = 0 →
      ticker_should_fire monoNow lastTickerTs tickerEvery minute second = false) ∧
    (¬(minute = 0 ∧ second = 0) →
      (ticker_should_fire monoNow lastTickerTs tickerEvery minute second = true ↔
        tickerEvery ≤ monoNow - lastTickerTs)) := by
  unfold ticker_should_fire
  constructor
  · rintro ⟨h1, h2⟩
    subst h1; subst h2
    simp
  · intro h
    by_cases hm : minute = 0
    · have hs : ¬ second = 0 := fun hs => h ⟨hm, hs⟩
      simp [hm, hs]
    · simp [hm]

/-- Witness for C5: at minute 0, second 0 the ticker is suppressed even
though 100 - 0 ≥ 60. -/
theorem ticker_skip_witness :
    ticker_should_fire 100 0 60 0 0 = false :=
  (ticker_skip 100 0 60 0 0).1 ⟨rfl, rfl⟩

/-! ## Seconds progress bar (`draw_seconds_bar`, src/led_clock.py lines 195-204) -/

/-- Filled pixel count of the bottom bar: embedding of
`frac = (now_dt.second + now_dt.microsecond / 1_000_000.0) / 60.0;
filled = int(frac * width)` with the float arithmetic carried out
exactly in ℚ; `int()` truncates, which on this non-negative value is the
floor. -/
def draw_seconds_bar_filled (second microsecond width : ℕ) : ℕ :=
  let frac : ℚ := ((second : ℚ) + (microsecond : ℚ) / 1000000) / 60
  (⌊frac * (width : ℚ)⌋).toNat

/-- The x-coordinates lit by `draw_seconds_bar` on row `y`: either
`range(0, filled, 2)` (dotted) or `range(filled)`. -/
def draw_seconds_bar_pixels (second microsecond width : ℕ)
    (dotted : Bool) : List ℕ :=
  let filled := draw_seconds_bar_filled second microsecond width
  if dotted then (List.range filled).filter (fun x => x % 2 == 0)
  else List.range filled

example : draw_seconds_bar_filled 30 0 32 = 16 := by
  unfold draw_seconds_bar_filled
  norm_num
  decide

/-- The filled count equals exact integer division of
`(second·10⁶ + microsecond)·width` by `6·10⁷`. -/
theorem draw_seconds_bar_filled_eq (second microsecond width : ℕ) :
    draw_seconds_bar_filled second microsecond width
      = (second * 1000000 + microsecond) * width / 60000000 := by
  show (⌊((second : ℚ) + (microsecond : ℚ) / 1000000) / 60 * (width : ℚ)⌋).toNat
    = (second * 1000000 + microsecond) * width / 60000000
  have h1 : ((second : ℚ) + (microsecond : ℚ) / 1000000) / 60 * (width : ℚ)
      = (((second * 1000000 + microsecond) * width : ℕ) : ℚ)
        / ((60000000 : ℕ) : ℚ) := by
    push_cast
    ring
  rw [Int.floor_toNat, h1, Nat.floor_div_nat, Nat.floor_natCast]

/-- C4: seconds bar. The filled pixel count is
`⌊((second + microsecond/10⁶)/60)·width⌋`; it is monotone in elapsed
time within the minute, is 0 at the minute boundary, always stays below
`width`, and at 59.999999 s it reaches `width - 1` (full bar up to
truncation) for any realistic width; dotted mode lights exactly the even
x-positions below the filled count and plain mode the whole prefix. -/
theorem seconds_bar_correct (second microsecond width : ℕ) :
    draw_seconds_bar_filled second microsecond width
      = (second * 1000000 + microsecond) * width / 60000000 ∧
    (∀ s2 u2 : ℕ, second * 1000000 + microsecond ≤ s2 * 1000000 + u2 →
      draw_seconds_bar_filled second microsecond width
        ≤ draw_seconds_bar_filled s2 u2 width) ∧
    draw_seconds_bar_filled 0 0 width = 0 ∧
    (second ≤ 59 → microsecond ≤ 999999 → 0 < width →
      draw_seconds_bar_filled second microsecond width < width) ∧
    (0 < width → width ≤ 60000000 →
      draw_seconds_bar_filled 59 999999 width = width - 1) ∧
    (∀ x, x ∈ draw_seconds_bar_pixels second microsecond width true ↔
      x < draw_seconds_bar_filled second microsecond width ∧ x % 2 = 0) ∧
    (∀ x, x ∈ draw_seconds_bar_pixels second microsecond width false ↔
      x < draw_seconds_bar_filled second microsecond width) := by
  refine ⟨draw_seconds_bar_filled_eq second microsecond width,
    ?_, ?_, ?_, ?_, ?_, ?_⟩
  · intro s2 u2 hle
    rw [draw_seconds_bar_filled_eq, draw_seconds_bar_filled_eq]
    exact Nat.div_le_div_right (Nat.mul_le_mul_right _ hle)
  · rw [draw_seconds_bar_filled_eq]
    simp
  · intro hs hu hw
    rw [draw_seconds_bar_filled_eq]
    have ha : second * 1000000 + microsecond < 60000000 := by omega
    have h2 := Nat.mul_lt_mul_of_pos_right ha hw
    exact (Nat.div_lt_iff_lt_mul (by norm_num)).mpr
      (by calc (second * 1000000 + microsecond) * width
            < 60000000 * width := h2
          _ = width * 60000000 := Nat.mul_comm _ _)
  · intro hw hle
    rw [draw_seconds_bar_filled_eq]
    refine Nat.div_eq_of_lt_le ?_ ?_ <;> omega
  · intro x
    unfold draw_seconds_bar_pixels
    simp [List.mem_filter, List.mem_range, and_comm]
  · intro x
    unfold draw_seconds_bar_pixels
    simp [List.mem_range]

/-- Witness for C4: on a 32-wide bar, 30 s gives 16 filled pixels, never
more than 31 are filled, and 59.999999 s fills 31 = 32 - 1. -/
theorem seconds_bar_correct_witness :
    draw_seconds_bar_filled 30 0 32 ≤ draw_seconds_bar_filled 45 0 32 ∧
    draw_seconds_bar_filled 45 0 32 < 32 ∧
    draw_seconds_bar_filled 59 999999 32 = 31 :=
  ⟨(seconds_bar_correct 30 0 32).2.1 45 0 (by decide),
   (seconds_bar_correct 45 0 32).2.2.2.1 (by decide) (by decide) (by decide),
   (seconds_bar_correct 59 999999 32).2.2.2.2.1 (by decide) (by decide)⟩

/-! ## Tiny 3x5 temperature font (src/led_clock.py lines 92-131)

`draw_small35` is embedded as the list of pixel coordinates passed to
`draw.point`. The loop's `i != len(txt) - 1` test holds exactly when
characters remain after the current one, so the recursion tests the
tail for emptiness; an unsupported character hits `continue` before the
cursor advance, so it moves nothing. -/

def DIGITS_3x5 : List (Char × List String) :=
  [('0', ["111", "101", "101", "101", "111"]),
   ('1', ["010", "110", "010", "010", "111"]),
   ('2', ["111", "001", "111", "100", "111"]),
   ('3', ["111", "001", "111", "001", "111"]),
   ('4', ["101", "101", "111", "001", "001"]),
   ('5', ["111", "100", "111", "001", "111"]),
   ('6', ["111", "100", "111", "101", "111"]),
   ('7', ["111", "001", "010", "100", "100"]),
   ('8', ["111", "101", "111", "101", "111"]),
   ('9', ["111", "101", "111", "001", "111"]),
   ('-', ["000", "000", "111", "000", "000"]),
   ('C', ["111", "100", "100", "100", "111"])]

/-- `DIGITS_3x5.get(ch)`. -/
def glyphOf (c : Char) : Option (List String) :=
  (DIGITS_3x5.find? (fun p => p.1 == c)).map (fun p => p.2)

/-- Pixels of one glyph drawn with its top-left corner at `(cx, y)`:
every '1' bit at row `ry`, column `rx` lights `(cx + rx, y + ry)`. -/
def glyphPoints (cx y : ℤ) (g : List String) : List (ℤ × ℤ) :=
  (g.enum.map (fun p =>
    p.2.data.enum.filterMap (fun q =>
      if q.2 = '1' then some (cx + (q.1 : ℤ), y + (p.1 : ℤ)) else none))).flatten

/-- Recursive core of `draw_small35`. -/
def draw_small35_go (cx y spacing : ℤ) : List Char → List (ℤ × ℤ)
  | [] => []
  | c :: rest =>
    match glyphOf c with
    | none => draw_small35_go cx y spacing rest
    | some g =>
      glyphPoints cx y g
        ++ draw_small35_go (cx + 3 + if rest.isEmpty then 0 else spacing)
          y spacing rest

/-- Embedding of `draw_small35(draw, x, y, txt, spacing)`: the pixels it
lights. -/
def draw_small35 (x y : ℤ) (txt : String) (spacing : ℤ) : List (ℤ × ℤ) :=
  draw_small35_go x y spacing txt.data

/-- Recursive core of `small35_text_size`: 3 per supported character
plus `spacing` after every supported character that is not in the final
position of the original string. -/
def small35_text_size_go (spacing : ℤ) : List Char → ℤ
  | [] => 0
  | c :: rest =>
    (if (glyphOf c).isSome then
      3 + (if rest.isEmpty then 0 else spacing) else 0)
      + small35_text_size_go spacing rest

/-- Embedding of `small35_text_size(txt, spacing)`. -/
def small35_text_size (txt : String) (spacing : ℤ) : ℤ × ℤ :=
  (small35_text_size_go spacing txt.data, 5)

/-- The supported characters of a string, in order. -/
def small35_filter (cs : List Char) : List Char :=
  cs.filter (fun c => (glyphOf c).isSome)

/-- True when the string ends in an unsupported character but contains a
supported one: exactly the case where `small35_text_size` counts one
spacing more than the filtered string's width. -/
def small35_trailing_skip (cs : List Char) : Bool :=
  match cs.getLast? with
  | some c => (glyphOf c).isNone && !(small35_filter cs).isEmpty
  | none => false

example : (small35_text_size "25C" 1).1 = 11 := by decide
example : (small35_text_size "-9C" 1).1 = 11 := by decide
example : (small35_text_size "1x" 1).1 = 4 := by decide
example : (small35_text_size "1" 1).1 = 3 := by decide
example : (small35_text_size "x1" 1).1 = 3 := by decide
example : draw_small35 0 1 "x1" 1 = draw_small35 0 1 "1" 1 := by decide
example : draw_small35 0 1 "1x" 1 = draw_small35 0 1 "1" 1 := by decide

theorem draw_go_cons (cx y spacing : ℤ) (c : Char) (rest : List Char) :
    draw_small35_go cx y spacing (c :: rest)
      = match glyphOf c with
        | none => draw_small35_go cx y spacing rest
        | some g =>
          glyphPoints cx y g
            ++ draw_small35_go
              (cx + 3 + if rest.isEmpty then 0 else spacing)
              y spacing rest := rfl

theorem draw_go_cons_some (cx y spacing : ℤ) (c : Char) (g : List String)
    (rest : List Char) (hg : glyphOf c = some g) :
    draw_small35_go cx y spacing (c :: rest)
      = glyphPoints cx y g
        ++ draw_small35_go (cx + 3 + if rest.isEmpty then 0 else spacing)
          y spacing rest := by
  rw [draw_go_cons, hg]

theorem draw_go_cons_none (cx y spacing : ℤ) (c : Char)
    (rest : List Char) (hg : glyphOf c = none) :
    draw_small35_go cx y spacing (c :: rest)
      = draw_small35_go cx y spacing rest := by
  rw [draw_go_cons, hg]

theorem size_go_cons (spacing : ℤ) (c : Char) (rest : List Char) :
    small35_text_size_go spacing (c :: rest)
      = (if (glyphOf c).isSome then
          3 + (if rest.isEmpty then 0 else spacing) else 0)
        + small35_text_size_go spacing rest := rfl

theorem size_go_cons_some (spacing : ℤ) (c : Char) (rest : List Char)
    (hc : (glyphOf c).isSome = true) :
    small35_text_size_go spacing (c :: rest)
      = 3 + (if rest.isEmpty then 0 else spacing)
        + small35_text_size_go spacing rest := by
  rw [size_go_cons, if_pos hc]

theorem size_go_cons_none (spacing : ℤ) (c : Char) (rest : List Char)
    (hc : ¬ (glyphOf c).isSome = true) :
    small35_text_size_go spacing (c :: rest)
      = small35_text_size_go spacing rest := by
  rw [size_go_cons, if_neg hc, zero_add]

theorem draw_go_nil_of_none (y spacing : ℤ) (cs : List Char)
    (h : ∀ c ∈ cs, glyphOf c = none) :
    ∀ cx : ℤ, draw_small35_go cx y spacing cs = [] := by
  induction cs with
  | nil => intro cx; rfl
  | cons c rest ih =>
    intro cx
    rw [draw_go_cons_none cx y spacing c rest (h c (by simp))]
    exact ih (fun d hd => h d (by simp [hd])) cx

/-- Unsupported characters neither draw pixels nor move the cursor:
the drawn pixel set of any string equals that of its supported
subsequence. -/
theorem draw_go_filter (y spacing : ℤ) (cs : List Char) :
    ∀ cx : ℤ, draw_small35_go cx y spacing cs
      = draw_small35_go cx y spacing (small35_filter cs) := by
  induction cs with
  | nil => intro cx; rfl
  | cons c rest ih =>
    intro cx
    by_cases hc : (glyphOf c).isSome = true
    · obtain ⟨g, hg⟩ := Option.isSome_iff_exists.mp hc
      have hfil : small35_filter (c :: rest) = c :: small35_filter rest := by
        simp [small35_filter, List.filter_cons, hc]
      rw [hfil, draw_go_cons_some _ _ _ _ _ _ hg,
        draw_go_cons_some _ _ _ _ _ _ hg]
      by_cases hrest : small35_filter rest = []
      · have hall : ∀ d ∈ rest, glyphOf d = none := by
          intro d hd
          have := List.filter_eq_nil_iff.mp hrest d hd
          exact Option.not_isSome_iff_eq_none.mp (by simpa using this)
        rw [hrest, draw_go_nil_of_none y spacing rest hall]
        rfl
      · have hrne : rest ≠ [] := fun h => hrest (by simp [small35_filter, h])
        have h1 : rest.isEmpty = false := by
          simpa [List.isEmpty_eq_false] using hrne
        have h2 : (small35_filter rest).isEmpty = false := by
          simpa [List.isEmpty_eq_false] using hrest
        rw [h1, h2]
        simp only [Bool.false_eq_true, if_false]
        exact congrArg _ (ih _)
    · have hcn : glyphOf c = none :=
        Option.not_isSome_iff_eq_none.mp (by simpa using hc)
      have hfil : small35_filter (c :: rest) = small35_filter rest := by
        simp [small35_filter, List.filter_cons, hcn]
      rw [hfil, draw_go_cons_none _ _ _ _ _ hcn]
      exact ih cx

/-- Computed width of a string versus that of its supported
subsequence: they agree except for one extra spacing when the string
ends in an unsupported character while containing a supported one. -/
theorem size_go_filter (spacing : ℤ) (cs : List Char) :
    small35_text_size_go spacing cs
      = small35_text_size_go spacing (small35_filter cs)
        + (if small35_trailing_skip cs = true then spacing else 0) := by
  induction cs with
  | nil => simp [small35_trailing_skip, small35_filter]
  | cons c rest ih =>
    cases rest with
    | nil =>
      by_cases hc : (glyphOf c).isSome = true
      · have hfil : small35_filter [c] = [c] := by
          simp [small35_filter, List.filter_cons, hc]
        have hskip : small35_trailing_skip [c] = false := by
          unfold small35_trailing_skip
          rw [List.getLast?_singleton]
          rcases Option.isSome_iff_exists.mp hc with ⟨g, hg⟩
          simp [hg]
        rw [hfil, hskip]
        simp
      · have hcn : glyphOf c = none :=
          Option.not_isSome_iff_eq_none.mp (by simpa using hc)
        have hfil : small35_filter [c] = [] := by
          simp [small35_filter, List.filter_cons, hcn]
        have hskip : small35_trailing_skip [c] = false := by
          unfold small35_trailing_skip
          rw [List.getLast?_singleton]
          simp [hcn, hfil]
        rw [hfil, hskip, size_go_cons_none _ _ _ hc]
        simp
    | cons r rs =>
      have hne : (r :: rs) ≠ [] := by simp
      have hl := List.getLast?_eq_getLast (r :: rs) hne
      set l := (r :: rs).getLast hne with hldef
      have hlmem : l ∈ r :: rs := List.getLast_mem hne
      have hskip1 : small35_trailing_skip (c :: r :: rs)
          = ((glyphOf l).isNone
            && !(small35_filter (c :: r :: rs)).isEmpty) := by
        unfold small35_trailing_skip
        rw [List.getLast?_cons_cons, hl]
      have hskip2 : small35_trailing_skip (r :: rs)
          = ((glyphOf l).isNone
            && !(small35_filter (r :: rs)).isEmpty) := by
        unfold small35_trailing_skip
        rw [hl]
      have hremp : (r :: rs).isEmpty = false := rfl
      by_cases hc : (glyphOf c).isSome = true
      · have hfil : small35_filter (c :: r :: rs)
            = c :: small35_filter (r :: rs) := by
          simp [small35_filter, List.filter_cons, hc]
        by_cases hrest : small35_filter (r :: rs) = []
        · have hlnone : glyphOf l = none := by
            have := List.filter_eq_nil_iff.mp hrest l hlmem
            exact Option.not_isSome_iff_eq_none.mp (by simpa using this)
          have hs1 : small35_trailing_skip (c :: r :: rs) = true := by
            rw [hskip1, hfil, hrest, hlnone]
            rfl
          have hs2 : small35_trailing_skip (r :: rs) = false := by
            rw [hskip2, hrest, hlnone]
            rfl
          rw [size_go_cons_some _ _ _ hc, ih, hs1, hs2, hfil, hrest,
            size_go_cons_some _ _ _ hc]
          simp [hremp]
          omega
        · have e2 : (small35_filter (r :: rs)).isEmpty = false := by
            simpa [List.isEmpty_eq_false] using hrest
          have hs12 : small35_trailing_skip (c :: r :: rs)
              = small35_trailing_skip (r :: rs) := by
            rw [hskip1, hskip2, hfil]
            have e1 : (c :: small35_filter (r :: rs)).isEmpty = false := rfl
            rw [e1, e2]
          rw [size_go_cons_some _ _ _ hc, ih, hs12, hfil,
            size_go_cons_some _ _ _ hc, e2]
          simp [hremp]
          omega
      · have hcn : glyphOf c = none :=
          Option.not_isSome_iff_eq_none.mp (by simpa using hc)
        have hfil : small35_filter (c :: r :: rs)
            = small35_filter (r :: rs) := by
          simp [small35_filter, List.filter_cons, hcn]
        have hs12 : small35_trailing_skip (c :: r :: rs)
            = small35_trailing_skip (r :: rs) := by
          rw [hskip1, hskip2, hfil]
        rw [size_go_cons_none _ _ _ hc, ih, hs12, hfil]

/-- C9 counterexample: for "1x" ('1' supported, 'x' unsupported) the
computed width is 4, while the filtered string "1" measures 3 — the
inter-character spacing after '1' is still counted even though the
following character is skipped, so the width is not computed as if
unsupported characters were absent. -/
theorem small35_size_counterexample :
    (small35_text_size "1x" 1).1 = 4 ∧
    (small35_text_size (String.mk (small35_filter "1x".data)) 1).1 = 3 := by
  exact ⟨by decide, by decide⟩

/-- C9 (amended): `draw_small35` lights exactly the pixels of the
string's supported subsequence (an unsupported character draws nothing
and does not advance the cursor), and `small35_text_size` computes the
filtered string's width (3 pixels per supported character plus spacing
between consecutive supported characters) except that when the string
ends in an unsupported character while containing a supported one, one
extra spacing is counted. -/
theorem small35_skip_correct (x y spacing : ℤ) (txt : String) :
    draw_small35 x y txt spacing
      = draw_small35 x y (String.mk (small35_filter txt.data)) spacing ∧
    (small35_text_size txt spacing).1
      = (small35_text_size (String.mk (small35_filter txt.data)) spacing).1
        + (if small35_trailing_skip txt.data = true then spacing else 0) :=
  ⟨draw_go_filter y spacing txt.data x, size_go_filter spacing txt.data⟩

/-! ## Date ticker marquee (`marquee_once_legacy`, src/led_clock.py lines 181-192)

The loop `for offset in range(0, total, 1)` first polls the global
`stop` flag and returns if it is set, otherwise draws the text at
`x = device.width - offset`. `stopAt o` models the value of the flag
observed at the start of frame `o`; the function returns the x-positions
of the frames actually drawn. -/

/-- Offsets of the frames drawn before the stop flag interrupts the loop. -/
def marquee_offsets (width w gap : ℕ) (stopAt : ℕ → Bool) : List ℕ :=
  (List.range (width + w + gap)).takeWhile (fun o => !stopAt o)

/-- Embedding of `marquee_once_legacy`: x-coordinates at which the text
is drawn, one per frame (`w` is the `textsize` width of the text). -/
def marquee_once_legacy (width w gap : ℕ) (stopAt : ℕ → Bool) : List ℤ :=
  (marquee_offsets width w gap stopAt).map
    (fun o : ℕ => (width : ℤ) - (o : ℤ))

/-- A take-while over a constantly-true predicate keeps the whole list. -/
theorem takeWhile_const_true {α : Type} (l : List α) :
    l.takeWhile (fun _ => true) = l := by
  induction l with
  | nil => rfl
  | cons a t ih => simp [List.takeWhile_cons, ih]

/-- A take-while never yields more elements than its input. -/
theorem takeWhile_length_le {α : Type} (l : List α) (p : α → Bool) :
    (l.takeWhile p).length ≤ l.length := by
  induction l with
  | nil => simp
  | cons a t ih =>
    by_cases hp : p a
    · rw [List.takeWhile_cons, if_pos hp]
      simpa using ih
    · rw [List.takeWhile_cons, if_neg hp]
      simp

/-- Inside its own length, a take-while agrees with the original list. -/
theorem getD_takeWhile {α : Type} (l : List α) (p : α → Bool) (i : ℕ)
    (d : α) (h : i < (l.takeWhile p).length) :
    (l.takeWhile p).getD i d = l.getD i d := by
  induction l generalizing i with
  | nil => simp [List.takeWhile] at h
  | cons a t ih =>
    by_cases hp : p a
    · rw [List.takeWhile_cons, if_pos hp] at h ⊢
      cases i with
      | zero => rfl
      | succ n =>
        simp only [List.getD_cons_succ]
        exact ih n (by simpa using h)
    · rw [List.takeWhile_cons, if_neg hp] at h
      simp at h

/-- A take-while stops no later than the first index whose element
fails the predicate. -/
theorem length_takeWhile_le_of_getD {α : Type} (l : List α) (p : α → Bool)
    (j : ℕ) (d : α) (h : j < l.length) (hp : p (l.getD j d) = false) :
    (l.takeWhile p).length ≤ j := by
  induction l generalizing j with
  | nil => simp at h
  | cons a t ih =>
    by_cases hpa : p a
    · cases j with
      | zero => simp [List.getD_cons_zero, hpa] at hp
      | succ n =>
        rw [List.takeWhile_cons, if_pos hpa]
        simp only [List.length_cons, Nat.succ_le_succ_iff]
        exact ih n (by simpa using h) (by simpa using hp)
    · rw [List.takeWhile_cons, if_neg hpa]
      simp

/-- C6: marquee scroll. With the stop flag never set, the marquee draws
exactly `width + w + gap` frames; frame `i` places the text at
`x = width - i`, so the first frame starts fully off-screen right at
`x = width`, each frame moves one pixel left, and the last frame is at
`x = 1 - w - gap`. For any stop schedule, a set flag at frame `j` makes
the loop return after at most `j` frames, and every frame that is drawn
is still at `x = width - i`. -/
theorem marquee_correct (width w gap : ℕ) :
    (marquee_once_legacy width w gap (fun _ => false)).length
      = width + w + gap ∧
    (∀ stopAt : ℕ → Bool, ∀ i,
      i < (marquee_once_legacy width w gap stopAt).length →
      (marquee_once_legacy width w gap stopAt).getD i 0
        = (width : ℤ) - (i : ℤ)) ∧
    (0 < width + w + gap →
      (marquee_once_legacy width w gap (fun _ => false)).getD 0 0
          = (width : ℤ) ∧
      (marquee_once_legacy width w gap
          (fun _ => false)).getD (width + w + gap - 1) 0
        = 1 - (w : ℤ) - (gap : ℤ)) ∧
    (∀ stopAt : ℕ → Bool, ∀ j, j < width + w + gap → stopAt j = true →
      (marquee_once_legacy width w gap stopAt).length ≤ j) := by
  have hoff : marquee_offsets width w gap (fun _ => false)
      = List.range (width + w + gap) := takeWhile_const_true _
  have hlen : (marquee_once_legacy width w gap (fun _ => false)).length
      = width + w + gap := by
    unfold marquee_once_legacy
    rw [hoff, List.length_map, List.length_range]
  have hval : ∀ stopAt : ℕ → Bool, ∀ i,
      i < (marquee_once_legacy width w gap stopAt).length →
      (marquee_once_legacy width w gap stopAt).getD i 0
        = (width : ℤ) - (i : ℤ) := by
    intro stopAt i hi
    have hi1 : i < (marquee_offsets width w gap stopAt).length := by
      unfold marquee_once_legacy at hi
      rwa [List.length_map] at hi
    have hi2 : i < (List.range (width + w + gap)).length :=
      lt_of_lt_of_le hi1 (takeWhile_length_le _ _)
    have h4 : (marquee_offsets width w gap stopAt).getD i 0 = i := by
      unfold marquee_offsets at hi1 ⊢
      rw [getD_takeWhile _ _ _ _ hi1, List.getD_eq_getElem _ _ hi2,
        List.getElem_range]
    have h5 : (marquee_offsets width w gap stopAt)[i] = i := by
      rw [← List.getD_eq_getElem _ 0 hi1]
      exact h4
    unfold marquee_once_legacy
    rw [List.getD_eq_getElem _ _ (by rw [List.length_map]; exact hi1),
      List.getElem_map, h5]
  refine ⟨hlen, hval, ?_, ?_⟩
  · intro hpos
    constructor
    · rw [hval _ 0 (by omega)]
      simp
    · rw [hval _ (width + w + gap - 1) (by omega)]
      push_cast [hpos]
      omega
  · intro stopAt j hj hstop
    unfold marquee_once_legacy marquee_offsets
    rw [List.length_map]
    refine length_takeWhile_le_of_getD (List.range (width + w + gap))
      (fun o => !stopAt o) j 0 (by simpa using hj) ?_
    rw [List.getD_eq_getElem _ _ (by simpa using hj), List.getElem_range]
    simp [hstop]

/-- Witness for C6: on a 4-wide display with a 2-wide text and gap 3 the
full run has 9 frames, frame 2 sits at x = 2, and a stop flag raised
from frame 5 on ends the run within 5 frames. -/
theorem marquee_correct_witness :
    (marquee_once_legacy 4 2 3 (fun _ => false)).length = 9 ∧
    (marquee_once_legacy 4 2 3 (fun _ => false)).getD 2 0 = 2 ∧
    (marquee_once_legacy 4 2 3 (fun o => decide (5 ≤ o))).length ≤ 5 :=
  ⟨(marquee_correct 4 2 3).1,
   (marquee_correct 4 2 3).2.1 (fun _ => false) 2 (by decide),
   (marquee_correct 4 2 3).2.2.2 (fun o => decide (5 ≤ o)) 5 (by decide)
     (by decide)⟩

/-! ## Decimal representation and Python `str`/`int` models

Python integers are unbounded, so `str`/`int` are modelled exactly on
`ℤ`: `natDigits` produces the decimal digits (most significant first)
that `str` prints, and `pyParseIntChars` models the grammar `int()`
accepts (an optional sign followed by decimal digits; Python's
whitespace and underscore tolerance is not modelled, which only narrows
the set of accepted strings). -/

/-- Fuel-driven digit extraction; the fuel only serves structural
recursion and any fuel above the argument gives the same digits. -/
def natDigitsAux : ℕ → ℕ → List ℕ
  | 0, _ => []
  | fuel + 1, n =>
    if n < 10 then [n] else natDigitsAux fuel (n / 10) ++ [n % 10]

/-- Decimal digits of a natural number, most significant first. -/
def natDigits (n : ℕ) : List ℕ := natDigitsAux (n + 1) n

theorem natDigitsAux_congr (fuel : ℕ) : ∀ fuel2 n, n < fuel → n < fuel2 →
    natDigitsAux fuel n = natDigitsAux fuel2 n := by
  induction fuel with
  | zero => intro fuel2 n h; omega
  | succ f ih =>
    intro fuel2 n h h2
    cases fuel2 with
    | zero => omega
    | succ g =>
      show (if n < 10 then [n] else natDigitsAux f (n / 10) ++ [n % 10])
        = (if n < 10 then [n] else natDigitsAux g (n / 10) ++ [n % 10])
      by_cases hn : n < 10
      · rw [if_pos hn, if_pos hn]
      · rw [if_neg hn, if_neg hn,
          ih g (n / 10) (by omega) (by omega)]

/-- Unfolding equation of `natDigits`. -/
theorem natDigits_eq (n : ℕ) :
    natDigits n = if n < 10 then [n]
      else natDigits (n / 10) ++ [n % 10] := by
  show (if n < 10 then [n] else natDigitsAux n (n / 10) ++ [n % 10]) = _
  by_cases hn : n < 10
  · rw [if_pos hn, if_pos hn]
  · rw [if_neg hn, if_neg hn,
      natDigitsAux_congr n (n / 10 + 1) (n / 10) (by omega) (by omega)]
    rfl

theorem natDigits_ne_nil (n : ℕ) : natDigits n ≠ [] := by
  rw [natDigits_eq]
  by_cases hn : n < 10
  · rw [if_pos hn]; simp
  · rw [if_neg hn]; simp

theorem natDigits_lt_ten (n : ℕ) : ∀ d ∈ natDigits n, d < 10 := by
  induction n using Nat.strong_induction_on with
  | _ n ih =>
    intro d hd
    rw [natDigits_eq] at hd
    by_cases hn : n < 10
    · rw [if_pos hn] at hd
      simp at hd
      omega
    · rw [if_neg hn] at hd
      rcases List.mem_append.mp hd with h | h
      · exact ih (n / 10) (by omega) d h
      · simp at h
        omega

/-- Value of a most-significant-first digit list. -/
def digitsVal (ds : List ℕ) : ℕ := ds.foldl (fun a d => a * 10 + d) 0

theorem digitsVal_natDigits (n : ℕ) : digitsVal (natDigits n) = n := by
  induction n using Nat.strong_induction_on with
  | _ n ih =>
    rw [natDigits_eq]
    by_cases hn : n < 10
    · rw [if_pos hn]
      simp [digitsVal]
    · rw [if_neg hn]
      unfold digitsVal
      rw [List.foldl_append]
      simp only [List.foldl_cons, List.foldl_nil]
      have hrec := ih (n / 10) (Nat.div_lt_self (by omega) (by omega))
      unfold digitsVal at hrec
      rw [hrec]
      omega

/-- Digits as the characters `str` prints. -/
def digitChars (ds : List ℕ) : List Char := ds.map Nat.digitChar

/-- Characters of `str(n)` for a natural `n`. -/
def natRepr (n : ℕ) : List Char := digitChars (natDigits n)

/-- Characters of `str(n)` for an integer `n`. -/
def intRepr (n : ℤ) : List Char :=
  (if n < 0 then ['-'] else []) ++ natRepr n.natAbs

theorem digitChar_facts (d : ℕ) (h : d < 10) :
    (Nat.digitChar d).isDigit = true ∧ Nat.digitChar d ≠ '-' ∧
      Nat.digitChar d ≠ '+' ∧ Nat.digitChar d ≠ '.' ∧
      (Nat.digitChar d).toNat - 48 = d := by
  interval_cases d <;> exact ⟨by decide, by decide, by decide, by decide,
    by decide⟩

/-- Model of the digit-string acceptance and value of Python's number
grammar: a non-empty all-digit string evaluated in base 10. -/
def parseDigits (cs : List Char) : Option ℕ :=
  if cs.isEmpty then none
  else if cs.all Char.isDigit then
    some (cs.foldl (fun a c => a * 10 + (c.toNat - 48)) 0)
  else none

/-- Model of Python `int(s)`: optional sign then decimal digits. -/
def pyParseIntChars (cs : List Char) : Option ℤ :=
  match cs with
  | [] => none
  | c :: rest =>
    if c = '-' then (parseDigits rest).map (fun n : ℕ => -(n : ℤ))
    else if c = '+' then (parseDigits rest).map (fun n : ℕ => (n : ℤ))
    else (parseDigits (c :: rest)).map (fun n : ℕ => (n : ℤ))

theorem pyParseIntChars_cons (c : Char) (rest : List Char) :
    pyParseIntChars (c :: rest)
      = if c = '-' then (parseDigits rest).map (fun n : ℕ => -(n : ℤ))
        else if c = '+' then (parseDigits rest).map (fun n : ℕ => (n : ℤ))
        else (parseDigits (c :: rest)).map (fun n : ℕ => (n : ℤ)) := rfl

theorem foldl_digitChars (ds : List ℕ) (h : ∀ d ∈ ds, d < 10) :
    ∀ a : ℕ, (ds.map Nat.digitChar).foldl
        (fun a c => a * 10 + (c.toNat - 48)) a
      = ds.foldl (fun a d => a * 10 + d) a := by
  induction ds with
  | nil => intro a; rfl
  | cons d t ih =>
    intro a
    simp only [List.map_cons, List.foldl_cons]
    rw [(digitChar_facts d (h d (by simp))).2.2.2.2]
    exact ih (fun x hx => h x (by simp [hx])) _

theorem natRepr_all_digits (n : ℕ) :
    (natRepr n).all Char.isDigit = true := by
  unfold natRepr digitChars
  rw [List.all_eq_true]
  intro c hc
  rcases List.mem_map.mp hc with ⟨d, hd, hcd⟩
  rw [← hcd]
  exact (digitChar_facts d (natDigits_lt_ten n d hd)).1

theorem parseDigits_natRepr (n : ℕ) : parseDigits (natRepr n) = some n := by
  unfold parseDigits
  rw [if_neg (by
    simp only [List.isEmpty_iff]
    unfold natRepr digitChars
    simp [natDigits_ne_nil n]), if_pos (natRepr_all_digits n)]
  unfold natRepr digitChars
  rw [foldl_digitChars (natDigits n) (natDigits_lt_ten n) 0]
  exact congrArg some (digitsVal_natDigits n)

/-- Round-trip: parsing `str(d)` recovers the integer `d`. -/
theorem pyParseIntChars_intRepr (d : ℤ) :
    pyParseIntChars (intRepr d) = some d := by
  unfold intRepr
  by_cases hneg : d < 0
  · rw [if_pos hneg]
    show pyParseIntChars ('-' :: natRepr d.natAbs) = some d
    rw [pyParseIntChars_cons, if_pos rfl, parseDigits_natRepr]
    show some (-(d.natAbs : ℤ)) = some d
    congr 1
    omega
  · rw [if_neg hneg, List.nil_append]
    have hne := natDigits_ne_nil d.natAbs
    obtain ⟨c, rest, hcr⟩ : ∃ c rest, natRepr d.natAbs = c :: rest := by
      unfold natRepr digitChars
      cases hds : natDigits d.natAbs with
      | nil => exact absurd hds hne
      | cons x xs => exact ⟨Nat.digitChar x, xs.map Nat.digitChar, by simp⟩
    have hcdig : c.isDigit = true := by
      have := natRepr_all_digits d.natAbs
      rw [hcr, List.all_cons, Bool.and_eq_true] at this
      exact this.1
    have hc1 : ¬ c = '-' := fun h => by rw [h] at hcdig; exact absurd hcdig (by decide)
    have hc2 : ¬ c = '+' := fun h => by rw [h] at hcdig; exact absurd hcdig (by decide)
    rw [hcr, pyParseIntChars_cons, if_neg hc1, if_neg hc2, ← hcr,
      parseDigits_natRepr]
    show some ((d.natAbs : ℕ) : ℤ) = some d
    congr 1
    omega

/-! ## Environment helpers (`_env_int`, `_env_bool`, src/led_clock.py
lines 35-51). The environment is modelled as the `Option String` value
`os.getenv` returns; `os.getenv(name, str(default))` is
`v.getD (str default)`. -/

/-- Embedding of `_env_int`: parse the variable (or the stringified
default when unset); any parse failure falls back to the default. -/
def _env_int (v : Option String) (default : ℤ) : ℤ :=
  match pyParseIntChars (v.getD (String.mk (intRepr default))).data with
  | some n => n
  | none => default

/-- Embedding of `_env_bool`: Python `bool(int(...))` is `(· ≠ 0)` of the
parsed integer, and the `except` branch yields `bool(default)`. -/
def _env_bool (v : Option String) (default : ℤ) : Bool :=
  match pyParseIntChars (v.getD (String.mk (intRepr default))).data with
  | some n => n != 0
  | none => default != 0

example : _env_int (some "12") 7 = 12 := by decide
example : _env_int (some "x12") 7 = 7 := by decide
example : _env_int none (-90) = -90 := by decide
example : _env_bool (some "0") 1 = false := by decide
example : _env_bool (some "oops") 1 = true := by decide

/-! ## Python float model and `_env_float` (src/led_clock.py lines 41-45)

A Python float is a binary fraction, and `str` prints the shortest
decimal string that round-trips to it; the model therefore carries a
float as that exact decimal, `mant / 10 ^ exp`, and `floatRepr` prints
it the way `str` does (whole-number floats get a trailing ".0").
`float(s)` is modelled on the grammar subset
`[sign] digits [. digits] | [sign] . digits`; Python's exponent, inf/nan
and underscore forms are not modelled, which only narrows the set of
accepted strings. -/

structure PyFloat where
  mant : ℤ
  exp : ℕ
deriving DecidableEq, Repr

/-- Rational value of a modelled float. -/
def pyFloatVal (f : PyFloat) : ℚ := (f.mant : ℚ) / 10 ^ f.exp

/-- Left-pad a digit list with zeros up to width `e`. -/
def padLeftZeros (e : ℕ) (ds : List ℕ) : List ℕ :=
  List.replicate (e - ds.length) 0 ++ ds

/-- Characters of `str(f)` for a float: sign, integer part, dot,
fractional digits (a lone "0" when the value is whole). -/
def floatRepr (f : PyFloat) : List Char :=
  (if f.mant < 0 then ['-'] else [])
    ++ natRepr (f.mant.natAbs / 10 ^ f.exp)
    ++ '.' :: (if f.exp = 0 then ['0']
      else digitChars (padLeftZeros f.exp (natDigits (f.mant.natAbs % 10 ^ f.exp))))

/-- Unsigned part of the `float()` grammar: digits with at most one dot. -/
def parseUFloatChars (cs : List Char) : Option ℚ :=
  if '.' ∈ cs then
    if '.' ∈ (cs.dropWhile (fun c => c != '.')).tail then none
    else if cs.takeWhile (fun c => c != '.') = []
        ∧ (cs.dropWhile (fun c => c != '.')).tail = [] then none
    else if (cs.takeWhile (fun c => c != '.')).all Char.isDigit
        ∧ ((cs.dropWhile (fun c => c != '.')).tail).all Char.isDigit then
      some (((cs.takeWhile (fun c => c != '.')).foldl
          (fun a c => a * 10 + (c.toNat - 48)) 0 : ℕ)
        + ((((cs.dropWhile (fun c => c != '.')).tail).foldl
            (fun a c => a * 10 + (c.toNat - 48)) 0 : ℕ) : ℚ)
          / 10 ^ ((cs.dropWhile (fun c => c != '.')).tail).length)
    else none
  else (parseDigits cs).map (fun n : ℕ => (n : ℚ))

/-- Model of Python `float(s)`: optional sign then the unsigned grammar. -/
def pyParseFloatChars (cs : List Char) : Option ℚ :=
  match cs with
  | [] => none
  | c :: rest =>
    if c = '-' then (parseUFloatChars rest).map (fun q => -q)
    else if c = '+' then parseUFloatChars rest
    else parseUFloatChars (c :: rest)

theorem pyParseFloatChars_cons (c : Char) (rest : List Char) :
    pyParseFloatChars (c :: rest)
      = if c = '-' then (parseUFloatChars rest).map (fun q => -q)
        else if c = '+' then parseUFloatChars rest
        else parseUFloatChars (c :: rest) := rfl

/-- Embedding of `_env_float`: parse the variable (or the stringified
default when unset); any parse failure falls back to the default. -/
def _env_float (v : Option String) (default : PyFloat) : ℚ :=
  match pyParseFloatChars (v.getD (String.mk (floatRepr default))).data with
  | some q => q
  | none => pyFloatVal default

example : floatRepr ⟨7, 2⟩ = ['0', '.', '0', '7'] := by decide
example : floatRepr ⟨600, 1⟩ = ['6', '0', '.', '0'] := by decide
example : floatRepr ⟨-45, 2⟩ = ['-', '0', '.', '4', '5'] := by decide
example : pyParseFloatChars ("0.07".data) = some (7 / 100) := by
  have h1 : ("0.07".data).takeWhile (fun c => c != '.') = ['0'] := by decide
  have h2 : ("0.07".data).dropWhile (fun c => c != '.')
      = ['.', '0', '7'] := by decide
  have e1 : List.foldl (fun a c => a * 10 + (Char.toNat c - 48)) 0 ['0']
      = 0 := by decide
  have e2 : List.foldl (fun a c => a * 10 + (Char.toNat c - 48)) 0
      ['0', '7'] = 7 := by decide
  show parseUFloatChars ("0.07".data) = some (7 / 100)
  unfold parseUFloatChars
  rw [if_pos (by decide), h1, h2]
  simp only [List.tail_cons, List.length_cons, List.length_nil]
  rw [if_neg (by decide), if_neg (by decide), if_pos (by decide), e1, e2]
  norm_num
example : pyParseFloatChars ("banana".data) = none := by decide
example : _env_float (some "banana") ⟨7, 2⟩ = pyFloatVal ⟨7, 2⟩ := rfl

theorem takeWhile_append_all {α : Type} (l1 l2 : List α) (p : α → Bool)
    (h : ∀ c ∈ l1, p c = true) :
    (l1 ++ l2).takeWhile p = l1 ++ l2.takeWhile p := by
  induction l1 with
  | nil => simp
  | cons a t ih =>
    rw [List.cons_append, List.takeWhile_cons, if_pos (h a (by simp)),
      List.cons_append, ih (fun c hc => h c (by simp [hc]))]

theorem dropWhile_append_all {α : Type} (l1 l2 : List α) (p : α → Bool)
    (h : ∀ c ∈ l1, p c = true) :
    (l1 ++ l2).dropWhile p = l2.dropWhile p := by
  induction l1 with
  | nil => simp
  | cons a t ih =>
    rw [List.cons_append, List.dropWhile_cons, if_pos (h a (by simp)),
      ih (fun c hc => h c (by simp [hc]))]

theorem digit_ne_dot (c : Char) (h : c.isDigit = true) :
    (c != '.') = true := by
  by_cases hc : c = '.'
  · rw [hc] at h
    exact absurd h (by decide)
  · simp [bne_iff_ne, hc]

/-- Leading zeros do not change the value of a digit list. -/
theorem digitsVal_rep_zero (k : ℕ) (ds : List ℕ) :
    (List.replicate k 0 ++ ds).foldl (fun a d => a * 10 + d) 0
      = ds.foldl (fun a d => a * 10 + d) 0 := by
  induction k with
  | zero => rfl
  | succ n ih =>
    rw [List.replicate_succ, List.cons_append, List.foldl_cons]
    simpa using ih

/-- A number below `10 ^ e` has at most `e` digits (for `e ≥ 1`). -/
theorem natDigits_length_le (e : ℕ) : ∀ m, m < 10 ^ e → 1 ≤ e →
    (natDigits m).length ≤ e := by
  induction e with
  | zero => intro m _ h; omega
  | succ e ih =>
    intro m hm _
    rw [natDigits_eq]
    by_cases h : m < 10
    · rw [if_pos h]
      simp
    · rw [if_neg h, List.length_append, List.length_cons, List.length_nil]
      have he : 1 ≤ e := by
        rcases Nat.eq_zero_or_pos e with rfl | hp
        · rw [pow_one] at hm; omega
        · exact hp
      have hd : m / 10 < 10 ^ e := by
        rw [Nat.div_lt_iff_lt_mul (by omega)]
        calc m < 10 ^ (e + 1) := hm
          _ = 10 ^ e * 10 := by rw [pow_succ]
      have := ih (m / 10) hd he
      omega

theorem parseUFloatChars_split (ipcs fpcs : List Char)
    (hip : ipcs.all Char.isDigit = true)
    (hfp : fpcs.all Char.isDigit = true) (hfpne : fpcs ≠ []) :
    parseUFloatChars (ipcs ++ '.' :: fpcs)
      = some ((ipcs.foldl (fun a c => a * 10 + (c.toNat - 48)) 0 : ℕ)
        + ((fpcs.foldl (fun a c => a * 10 + (c.toNat - 48)) 0 : ℕ) : ℚ)
          / 10 ^ fpcs.length) := by
  have hipdot : ∀ c ∈ ipcs, (c != '.') = true := fun c hc =>
    digit_ne_dot c (List.all_eq_true.mp hip c hc)
  have h1 : (ipcs ++ '.' :: fpcs).takeWhile (fun c => c != '.') = ipcs := by
    rw [takeWhile_append_all _ _ _ hipdot, List.takeWhile_cons,
      if_neg (by decide), List.append_nil]
  have h2 : (ipcs ++ '.' :: fpcs).dropWhile (fun c => c != '.')
      = '.' :: fpcs := by
    rw [dropWhile_append_all _ _ _ hipdot, List.dropWhile_cons,
      if_neg (by decide)]
  have hdot : '.' ∈ ipcs ++ '.' :: fpcs := by simp
  unfold parseUFloatChars
  rw [if_pos hdot, h1, h2]
  simp only [List.tail_cons]
  rw [if_neg (fun hin =>
      absurd (List.all_eq_true.mp hfp '.' hin) (by decide)),
    if_neg (fun hand => hfpne hand.2), if_pos ⟨hip, hfp⟩]

theorem foldl_natRepr (n : ℕ) :
    (natRepr n).foldl (fun a c => a * 10 + (c.toNat - 48)) 0 = n := by
  unfold natRepr digitChars
  rw [foldl_digitChars (natDigits n) (natDigits_lt_ten n) 0]
  exact digitsVal_natDigits n

theorem parseUFloat_floatRepr_unsigned (a e : ℕ) :
    parseUFloatChars (natRepr (a / 10 ^ e) ++ '.' ::
        (if e = 0 then ['0']
         else digitChars (padLeftZeros e (natDigits (a % 10 ^ e)))))
      = some ((a : ℚ) / 10 ^ e) := by
  by_cases he0 : e = 0
  · subst he0
    rw [if_pos rfl,
      parseUFloatChars_split _ _ (natRepr_all_digits _) (by decide)
        (by decide)]
    simp only [pow_zero, Nat.div_one] at *
    rw [foldl_natRepr,
      show List.foldl (fun x c => x * 10 + (Char.toNat c - 48)) 0 ['0'] = 0
        from by decide]
    norm_num
  · rw [if_neg he0]
    have hpow : 0 < 10 ^ e := Nat.pos_pow_of_pos e (by omega)
    have hlt : a % 10 ^ e < 10 ^ e := Nat.mod_lt _ hpow
    have hlen : (natDigits (a % 10 ^ e)).length ≤ e :=
      natDigits_length_le e _ hlt (by omega)
    have hpad_lt : ∀ d ∈ padLeftZeros e (natDigits (a % 10 ^ e)),
        d < 10 := by
      intro d hd
      rcases List.mem_append.mp hd with h | h
      · rw [List.eq_of_mem_replicate h]; omega
      · exact natDigits_lt_ten _ d h
    have hall : (digitChars (padLeftZeros e
        (natDigits (a % 10 ^ e)))).all Char.isDigit = true := by
      rw [List.all_eq_true]
      intro c hc
      rcases List.mem_map.mp hc with ⟨d, hd, hcd⟩
      rw [← hcd]
      exact (digitChar_facts d (hpad_lt d hd)).1
    have hne : digitChars (padLeftZeros e (natDigits (a % 10 ^ e)))
        ≠ [] := by
      intro hcon
      rw [digitChars, List.map_eq_nil_iff] at hcon
      rcases List.append_eq_nil.mp hcon with ⟨_, h2⟩
      exact natDigits_ne_nil _ h2
    rw [parseUFloatChars_split _ _ (natRepr_all_digits _) hall hne]
    have hfoldfp : (digitChars (padLeftZeros e
          (natDigits (a % 10 ^ e)))).foldl
        (fun x c => x * 10 + (c.toNat - 48)) 0 = a % 10 ^ e := by
      unfold digitChars
      rw [foldl_digitChars _ hpad_lt 0]
      show (padLeftZeros e (natDigits (a % 10 ^ e))).foldl
        (fun x d => x * 10 + d) 0 = a % 10 ^ e
      unfold padLeftZeros
      rw [digitsVal_rep_zero]
      exact digitsVal_natDigits _
    have hlenfp : (digitChars (padLeftZeros e
        (natDigits (a % 10 ^ e)))).length = e := by
      simp only [digitChars, padLeftZeros, List.length_map,
        List.length_append, List.length_replicate]
      omega
    rw [foldl_natRepr, hfoldfp, hlenfp]
    congr 1
    have h10 : ((10 : ℚ) ^ e) ≠ 0 := by positivity
    field_simp
    have hsplit : a = 10 ^ e * (a / 10 ^ e) + a % 10 ^ e :=
      (Nat.div_add_mod a (10 ^ e)).symm
    have hq : ((a : ℚ)) = ((10 ^ e * (a / 10 ^ e) + a % 10 ^ e : ℕ) : ℚ) := by
      exact_mod_cast congrArg (fun x : ℕ => (x : ℚ)) hsplit
    rw [hq]
    push_cast
    ring

/-- Round-trip: parsing `str(f)` recovers the float's value. -/
theorem pyParseFloatChars_floatRepr (f : PyFloat) :
    pyParseFloatChars (floatRepr f) = some (pyFloatVal f) := by
  unfold floatRepr
  by_cases hneg : f.mant < 0
  · rw [if_pos hneg, List.singleton_append, List.cons_append,
      pyParseFloatChars_cons, if_pos rfl, parseUFloat_floatRepr_unsigned]
    unfold pyFloatVal
    show some (-((f.mant.natAbs : ℚ) / 10 ^ f.exp))
      = some ((f.mant : ℚ) / 10 ^ f.exp)
    congr 1
    have hm : (f.mant.natAbs : ℤ) = -f.mant := by omega
    have hcast : ((f.mant.natAbs : ℕ) : ℚ) = -((f.mant : ℤ) : ℚ) := by
      have h0 : ((f.mant.natAbs : ℕ) : ℚ) = ((f.mant.natAbs : ℤ) : ℚ) :=
        (Int.cast_natCast _).symm
      rw [h0, hm]
      push_cast
      ring
    rw [hcast]
    ring
  · rw [if_neg hneg, List.nil_append]
    have hne := natDigits_ne_nil (f.mant.natAbs / 10 ^ f.exp)
    obtain ⟨c, rest, hcr⟩ : ∃ c rest,
        natRepr (f.mant.natAbs / 10 ^ f.exp) = c :: rest := by
      unfold natRepr digitChars
      cases hds : natDigits (f.mant.natAbs / 10 ^ f.exp) with
      | nil => exact absurd hds hne
      | cons x xs => exact ⟨Nat.digitChar x, xs.map Nat.digitChar, by simp⟩
    have hcdig : c.isDigit = true := by
      have := natRepr_all_digits (f.mant.natAbs / 10 ^ f.exp)
      rw [hcr, List.all_cons, Bool.and_eq_true] at this
      exact this.1
    have hc1 : ¬ c = '-' := fun h => by
      rw [h] at hcdig; exact absurd hcdig (by decide)
    have hc2 : ¬ c = '+' := fun h => by
      rw [h] at hcdig; exact absurd hcdig (by decide)
    rw [hcr, List.cons_append, pyParseFloatChars_cons, if_neg hc1,
      if_neg hc2, ← List.cons_append, ← hcr,
      parseUFloat_floatRepr_unsigned]
    unfold pyFloatVal
    congr 2
    have hm : (f.mant.natAbs : ℤ) = f.mant := by omega
    have h0 : ((f.mant.natAbs : ℕ) : ℚ) = ((f.mant.natAbs : ℤ) : ℚ) :=
      (Int.cast_natCast _).symm
    rw [h0, hm]

/-! ## HH:MM parsing (`_parse_hhmm`, src/led_clock.py lines 53-58) -/

/-- Python `s.split(":")`. -/
def splitOnColon (cs : List Char) : List (List Char) :=
  match cs with
  | [] => [[]]
  | c :: rest =>
    let r := splitOnColon rest
    if c = ':' then [] :: r
    else match r with
      | h :: t => (c :: h) :: t
      | [] => [[c]]

/-- The `try` body of `_parse_hhmm`: `h, m = map(int, s.split(":"))`
succeeds only when the split yields exactly two parseable parts. -/
def parseHHMMParts (s : String) : Option (ℤ × ℤ) :=
  match (splitOnColon s.data).map pyParseIntChars with
  | [some h, some m] => some (h, m)
  | _ => none

/-- Embedding of `_parse_hhmm` with Python `%` (euclidean remainder for
a positive modulus, matching Lean's `%` on `ℤ`). -/
def _parse_hhmm (s : String) (fallback : ℤ × ℤ) : ℤ × ℤ :=
  match parseHHMMParts s with
  | some (h, m) => (h % 24, m % 60)
  | none => fallback

example : _parse_hhmm "22:30" (0, 0) = (22, 30) := by decide
example : _parse_hhmm "25:99" (0, 0) = (1, 39) := by decide
example : _parse_hhmm "-1:5" (0, 0) = (23, 5) := by decide
example : _parse_hhmm "1:2:3" (7, 7) = (7, 7) := by decide
example : _parse_hhmm "oops" (22, 30) = (22, 30) := by decide

/-- C10: when the input splits on ":" into exactly two integer-parseable
parts H and M, `_parse_hhmm` returns (H mod 24, M mod 60) — always inside
[0,23] × [0,59], wrapping out-of-range values instead of rejecting
them — and the fallback is returned exactly when that parsing fails. -/
theorem parse_hhmm_wrap (s : String) (fallback : ℤ × ℤ) :
    (∀ h m : ℤ, parseHHMMParts s = some (h, m) →
      _parse_hhmm s fallback = (h % 24, m % 60) ∧
      0 ≤ h % 24 ∧ h % 24 < 24 ∧ 0 ≤ m % 60 ∧ m % 60 < 60) ∧
    (parseHHMMParts s = none → _parse_hhmm s fallback = fallback) := by
  constructor
  · intro h m hp
    unfold _parse_hhmm
    rw [hp]
    exact ⟨rfl, Int.emod_nonneg h (by omega), Int.emod_lt_of_pos h (by omega),
      Int.emod_nonneg m (by omega), Int.emod_lt_of_pos m (by omega)⟩
  · intro hp
    unfold _parse_hhmm
    rw [hp]

/-- Witness for C10: "25:99" parses to (25, 99) and wraps to (1, 39);
"oops" fails to parse and returns the fallback. -/
theorem parse_hhmm_wrap_witness :
    _parse_hhmm "25:99" (0, 0) = ((25 : ℤ) % 24, (99 : ℤ) % 60) ∧
    _parse_hhmm "oops" (22, 30) = (22, 30) :=
  ⟨((parse_hhmm_wrap "25:99" (0, 0)).1 25 99 (by decide)).1,
   (parse_hhmm_wrap "oops" (22, 30)).2 (by decide)⟩

/-- C8: configuration helpers are fail-safe. For every environment value
that fails the numeric (or boolean, or HH:MM) parse the helper returns
its documented default instead of raising, and when the variable is
unset each helper returns the default (via `str(default)`, which always
parses back). -/
theorem env_fail_safe :
    (∀ (s : String) (d : ℤ), pyParseIntChars s.data = none →
      _env_int (some s) d = d) ∧
    (∀ d : ℤ, _env_int none d = d) ∧
    (∀ (s : String) (d : ℤ), pyParseIntChars s.data = none →
      _env_bool (some s) d = (d != 0)) ∧
    (∀ d : ℤ, _env_bool none d = (d != 0)) ∧
    (∀ (s : String) (f : PyFloat), pyParseFloatChars s.data = none →
      _env_float (some s) f = pyFloatVal f) ∧
    (∀ f : PyFloat, _env_float none f = pyFloatVal f) ∧
    (∀ (s : String) (fb : ℤ × ℤ), parseHHMMParts s = none →
      _parse_hhmm s fb = fb) := by
  refine ⟨?_, ?_, ?_, ?_, ?_, ?_, ?_⟩
  · intro s d hp
    show (match pyParseIntChars s.data with
      | some n => n | none => d) = d
    rw [hp]
  · intro d
    show (match pyParseIntChars (intRepr d) with
      | some n => n | none => d) = d
    rw [pyParseIntChars_intRepr]
  · intro s d hp
    show (match pyParseIntChars s.data with
      | some n => n != 0 | none => d != 0) = (d != 0)
    rw [hp]
  · intro d
    show (match pyParseIntChars (intRepr d) with
      | some n => n != 0 | none => d != 0) = (d != 0)
    rw [pyParseIntChars_intRepr]
  · intro s f hp
    show (match pyParseFloatChars s.data with
      | some q => q | none => pyFloatVal f) = pyFloatVal f
    rw [hp]
  · intro f
    show (match pyParseFloatChars (floatRepr f) with
      | some q => q | none => pyFloatVal f) = pyFloatVal f
    rw [pyParseFloatChars_floatRepr]
  · intro s fb hp
    unfold _parse_hhmm
    rw [hp]

/-- Witness for C8: unparseable values fall back to each helper's
default and an unset float variable yields its default value. -/
theorem env_fail_safe_witness :
    _env_int (some "oops") 7 = 7 ∧
    _env_bool (some "oops") 0 = ((0 : ℤ) != 0) ∧
    _env_float (some "oops") ⟨7, 2⟩ = pyFloatVal ⟨7, 2⟩ ∧
    _env_float none ⟨45, 2⟩ = pyFloatVal ⟨45, 2⟩ ∧
    _parse_hhmm "oo:ps" (22, 30) = (22, 30) :=
  ⟨env_fail_safe.1 "oops" 7 (by decide),
   env_fail_safe.2.2.1 "oops" 0 (by decide),
   env_fail_safe.2.2.2.2.1 "oops" ⟨7, 2⟩ (by decide),
   env_fail_safe.2.2.2.2.2.1 ⟨45, 2⟩,
   env_fail_safe.2.2.2.2.2.2 "oo:ps" (22, 30) (by decide)⟩

/-! ## Temperature formatting (`get_cpu_temp_c` and main-loop line 349)

`get_cpu_temp_c` performs IO (sensor file, then `vcgencmd`); its result
is modelled as the `Option ℚ` it returns — `none` when both sources
fail. The main loop renders it with
`temp_raw = "--" if temp_c is None else f"{int(round(max(-99, min(199, temp_c))))}"`. -/

/-- Python 3 `round()` with no digits: nearest integer, ties to even. -/
def pyRound (q : ℚ) : ℤ :=
  if q - ⌊q⌋ < 1 / 2 then ⌊q⌋
  else if 1 / 2 < q - ⌊q⌋ then ⌊q⌋ + 1
  else if ⌊q⌋ % 2 = 0 then ⌊q⌋ else ⌊q⌋ + 1

/-- Embedding of the `temp_raw` expression of the main loop. -/
def temp_raw (temp_c : Option ℚ) : String :=
  match temp_c with
  | none => "--"
  | some t => String.mk (intRepr (pyRound (max (-99) (min 199 t))))

example : pyRound (85 / 10) = 8 := by
  have h8 : ⌊(85 / 10 : ℚ)⌋ = 8 := by
    rw [Int.floor_eq_iff]
    norm_num
  unfold pyRound
  rw [h8]
  norm_num

example : pyRound (95 / 10) = 10 := by
  have h9 : ⌊(95 / 10 : ℚ)⌋ = 9 := by
    rw [Int.floor_eq_iff]
    norm_num
  unfold pyRound
  rw [h9]
  norm_num

example : temp_raw (some 250) = "199" := by
  show String.mk (intRepr (pyRound (max (-99) (min 199 250)))) = "199"
  rw [show max (-99 : ℚ) (min 199 250) = 199 from by norm_num,
    show pyRound 199 = 199 from by
      unfold pyRound
      rw [show ⌊(199 : ℚ)⌋ = 199 from by norm_num]
      norm_num]
  decide

example : temp_raw (some (-120)) = "-99" := by
  show String.mk (intRepr (pyRound (max (-99) (min 199 (-120))))) = "-99"
  rw [show max (-99 : ℚ) (min 199 (-120)) = -99 from by norm_num,
    show pyRound (-99) = -99 from by
      unfold pyRound
      rw [show ⌊(-99 : ℚ)⌋ = -99 from by norm_num]
      norm_num]
  decide

example : temp_raw none = "--" := by decide

/-- The decimal representation of an integer never contains a dot. -/
theorem intRepr_no_dot (n : ℤ) :
    ((intRepr n).any (fun c => c == '.')) = false := by
  rw [Bool.eq_false_iff]
  intro h
  rw [List.any_eq_true] at h
  obtain ⟨c, hc, hcd⟩ := h
  have hc2 : c = '.' := by simpa using hcd
  subst hc2
  unfold intRepr at hc
  rcases List.mem_append.mp hc with h | h
  · revert h
    by_cases hn : n < 0 <;> simp [hn]
  · have := List.all_eq_true.mp (natRepr_all_digits n.natAbs) '.' h
    exact absurd this (by decide)

/-- C3: temperature rendering. A sensor reading t is rendered as the
decimal representation of round(clamp(t, -99, 199)) — an integer in
[-99, 199], with no decimal point in the text — and a failed reading
(both sensor sources unavailable, `None`) renders as the placeholder
"--", so the frame is still drawn. -/
theorem temp_format_correct (t : ℚ) :
    temp_raw none = "--" ∧
    temp_raw (some t)
      = String.mk (intRepr (pyRound (max (-99) (min 199 t)))) ∧
    -99 ≤ pyRound (max (-99) (min 199 t)) ∧
    pyRound (max (-99) (min 199 t)) ≤ 199 ∧
    ((temp_raw (some t)).data.any (fun c => c == '.')) = false ∧
    ((temp_raw none).data.any (fun c => c == '.')) = false := by
  have hc1 : (-99 : ℚ) ≤ max (-99) (min 199 t) := le_max_left _ _
  have hc2 : max (-99 : ℚ) (min 199 t) ≤ 199 :=
    max_le (by norm_num) (min_le_left _ _)
  have hf1 : (-99 : ℤ) ≤ ⌊max (-99 : ℚ) (min 199 t)⌋ := by
    rw [Int.le_floor]
    exact_mod_cast hc1
  have hf2 : ⌊max (-99 : ℚ) (min 199 t)⌋ ≤ 199 := by
    have h := Int.floor_le_floor hc2
    simpa using h
  have hfl : (⌊max (-99 : ℚ) (min 199 t)⌋ : ℚ) ≤ max (-99 : ℚ) (min 199 t) :=
    Int.floor_le _
  have hup : ∀ hhalf : (1 : ℚ) / 2 ≤ max (-99 : ℚ) (min 199 t)
        - ⌊max (-99 : ℚ) (min 199 t)⌋,
      ⌊max (-99 : ℚ) (min 199 t)⌋ ≤ 198 := by
    intro hhalf
    have hcast : (⌊max (-99 : ℚ) (min 199 t)⌋ : ℚ) < ((199 : ℤ) : ℚ) := by
      push_cast
      linarith
    have := Int.cast_lt.mp hcast
    omega
  refine ⟨rfl, rfl, ?_, ?_, intRepr_no_dot _, by decide⟩
  · unfold pyRound
    split_ifs <;> omega
  · unfold pyRound
    split_ifs with h1 h2 h3
    · omega
    · have := hup (by linarith)
      omega
    · omega
    · have := hup (by linarith)
      omega

/-! ## Time rendering with custom colon
(`draw_time_with_custom_colon`, src/led_clock.py lines 133-170).

The luma library calls `textsize(hh)`, `textsize(mm)` and the drawing
primitives are abstracted: the glyph widths `w_h`, `w_m` and height `h`
returned by `textsize` are taken as parameters, and the function returns
the layout the source computes — the positions handed to `legacy_text`
for the hour and minute strings and the two colon pixels handed to
`draw.point`. -/

/-- Result of one call to `draw_time_with_custom_colon`: where the hour
text, colon pixels and minute text are placed. -/
structure TimeDraw where
  hoursPos : ℤ × ℤ
  colonPts : List (ℤ × ℤ)
  minutesPos : ℤ × ℤ
  leftReservedAdj : ℤ
  x0 : ℤ
deriving DecidableEq, Repr

/-- Embedding of `draw_time_with_custom_colon` (src/led_clock.py lines
133-170). `width`/`height` are `device.width`/`device.height`; `w_h`,
`w_m`, `h` are the `textsize` results for the hour and minute strings.
Python `//` on ints with positive divisor agrees with `Int` division. -/
def draw_time_with_custom_colon (width height w_h w_m h : ℤ) (blink : Bool)
    (left_reserved : ℤ) (gap colon_w colon_vgap time_offset : ℤ) : TimeDraw :=
  let w_time := w_h + gap + colon_w + gap + w_m
  let lr := if width < left_reserved + w_time then max 0 (width - w_time)
            else left_reserved
  let x0 := max 0 (width - (lr + w_time)) + time_offset
  let y := max 0 ((height - h) / 2)
  let cx := x0 + lr + w_h + gap
  let t1 := y + max 0 ((h - 1 - colon_vgap) / 2)
  let t2 := min (y + h - 1) (t1 + colon_vgap)
  ⟨(x0 + lr, y),
   if blink then [] else [(cx, t1), (cx, t2)],
   (cx + colon_w + gap, y),
   lr, x0⟩

example :
    (draw_time_with_custom_colon 32 8 7 7 5 false 9 1 1 2 0).hoursPos
      = (15, 1) := by decide

/-- C2: reserved-width adjustment. With a requested `left_reserved ≥ 0`,
the renderer shrinks the reservation to `max 0 (width - w_time)` exactly
when `left_reserved + w_time > width`, never enlarges it, and at
`time_offset = 0` the x-coordinate where the time starts is
`max 0 (width - w_time)` — independent of the reservation — so the time
never shifts because of it and, whenever `w_time ≤ width`, it stays
entirely on screen (ending exactly at the right edge). -/
theorem time_layout_correct (width height w_h w_m h left_reserved gap
    colon_w colon_vgap : ℤ) (hlr : 0 ≤ left_reserved) :
    (draw_time_with_custom_colon width height w_h w_m h false left_reserved
        gap colon_w colon_vgap 0).leftReservedAdj ≤ left_reserved ∧
    (width < left_reserved + (w_h + gap + colon_w + gap + w_m) →
      (draw_time_with_custom_colon width height w_h w_m h false left_reserved
          gap colon_w colon_vgap 0).leftReservedAdj
        = max 0 (width - (w_h + gap + colon_w + gap + w_m))) ∧
    (left_reserved + (w_h + gap + colon_w + gap + w_m) ≤ width →
      (draw_time_with_custom_colon width height w_h w_m h false left_reserved
          gap colon_w colon_vgap 0).leftReservedAdj = left_reserved) ∧
    (draw_time_with_custom_colon width height w_h w_m h false left_reserved
        gap colon_w colon_vgap 0).hoursPos.1
      = max 0 (width - (w_h + gap + colon_w + gap + w_m)) ∧
    (w_h + gap + colon_w + gap + w_m ≤ width →
      0 ≤ (draw_time_with_custom_colon width height w_h w_m h false
          left_reserved gap colon_w colon_vgap 0).hoursPos.1 ∧
      (draw_time_with_custom_colon width height w_h w_m h false left_reserved
          gap colon_w colon_vgap 0).hoursPos.1
        + (w_h + gap + colon_w + gap + w_m) ≤ width) := by
  unfold draw_time_with_custom_colon
  simp only
  constructor
  · split
    · omega
    · omega
  constructor
  · intro hov
    split
    · rfl
    · omega
  constructor
  · intro hfit
    split
    · omega
    · rfl
  constructor
  · split
    · omega
    · omega
  · intro hfit
    split
    · omega
    · omega

/-- Witness for C2: requested reservation 9 on a 32-wide display with a
17-pixel time fits unshrunken and the time starts at x = 15. -/
theorem time_layout_correct_witness :
    (draw_time_with_custom_colon 32 8 7 7 5 false 9 1 1 2 0).leftReservedAdj
        ≤ 9 ∧
    (draw_time_with_custom_colon 32 8 7 7 5 false 9 1 1 2 0).hoursPos.1
      = max 0 (32 - (7 + 1 + 1 + 1 + 7)) :=
  ⟨(time_layout_correct 32 8 7 7 5 9 1 1 2 (by decide)).1,
   (time_layout_correct 32 8 7 7 5 9 1 1 2 (by decide)).2.2.2.1⟩

/-- C7: colon blink. The main loop's blink flag is a pure function of the
current second's parity (true exactly when blinking is enabled and the
second is odd), and the blink flag only removes the two colon pixels:
the hour position, minute position, adjusted reservation, base offset and
the colon column's x-coordinate are identical for both blink values. -/
theorem colon_blink_correct (blink_colon : ℤ) (second : ℕ) (width height
    w_h w_m h left_reserved gap colon_w colon_vgap time_offset : ℤ) :
    (main_blink blink_colon second = true ↔
      blink_colon ≠ 0 ∧ second % 2 = 1) ∧
    (∀ second2 : ℕ, second2 % 2 = second % 2 →
      main_blink blink_colon second2 = main_blink blink_colon second) ∧
    ((draw_time_with_custom_colon width height w_h w_m h true left_reserved
        gap colon_w colon_vgap time_offset).hoursPos
      = (draw_time_with_custom_colon width height w_h w_m h false
          left_reserved gap colon_w colon_vgap time_offset).hoursPos) ∧
    ((draw_time_with_custom_colon width height w_h w_m h true left_reserved
        gap colon_w colon_vgap time_offset).minutesPos
      = (draw_time_with_custom_colon width height w_h w_m h false
          left_reserved gap colon_w colon_vgap time_offset).minutesPos) ∧
    ((draw_time_with_custom_colon width height w_h w_m h true left_reserved
        gap colon_w colon_vgap time_offset).leftReservedAdj
      = (draw_time_with_custom_colon width height w_h w_m h false
          left_reserved gap colon_w colon_vgap time_offset).leftReservedAdj) ∧
    ((draw_time_with_custom_colon width height w_h w_m h true left_reserved
        gap colon_w colon_vgap time_offset).x0
      = (draw_time_with_custom_colon width height w_h w_m h false
          left_reserved gap colon_w colon_vgap time_offset).x0) ∧
    ((draw_time_with_custom_colon width height w_h w_m h true left_reserved
        gap colon_w colon_vgap time_offset).colonPts = []) ∧
    (∀ p ∈ (draw_time_with_custom_colon width height w_h w_m h false
        left_reserved gap colon_w colon_vgap time_offset).colonPts,
      p.1 = (draw_time_with_custom_colon width height w_h w_m h false
          left_reserved gap colon_w colon_vgap time_offset).x0
        + (draw_time_with_custom_colon width height w_h w_m h false
            left_reserved gap colon_w colon_vgap time_offset).leftReservedAdj
        + w_h + gap) := by
  refine ⟨?_, ?_, rfl, rfl, rfl, rfl, rfl, ?_⟩
  · unfold main_blink
    constructor
    · intro hb
      simp only [Bool.and_eq_true, bne_iff_ne, ne_eq, beq_iff_eq] at hb
      exact hb
    · intro ⟨h1, h2⟩
      simp [main_blink, h1, h2]
  · intro s2 hpar
    unfold main_blink
    rw [hpar]
  · intro p hp
    simp only [draw_time_with_custom_colon, List.mem_cons,
      List.not_mem_nil, or_false, Bool.false_eq_true, if_false] at hp
    rcases hp with hp | hp <;> subst hp <;> rfl

/-- Witness for C7: with blinking enabled at second 31 the flag is set;
sharing parity with second 59 gives the same flag. -/
theorem colon_blink_correct_witness :
    main_blink 1 31 = true ∧ main_blink 1 59 = main_blink 1 31 :=
  ⟨(colon_blink_correct 1 31 32 8 7 7 5 9 1 1 2 0).1.mpr
      ⟨by decide, by decide⟩,
   (colon_blink_correct 1 31 32 8 7 7 5 9 1 1 2 0).2.1 59 (by decide)⟩
